import Mathlib

/-!
Shallow embedding of `src/LArVertex/VertexSelectionAlgorithm.cc` (namespace
`lar_content`, class `VertexSelectionAlgorithm`) and proofs about it.

Modelling conventions:
* 2D positions in a readout view are pairs of rationals `(x, z)`; the algorithm
  only ever uses the `GetX`/`GetZ` components of 2D vectors (LAr 2D positions
  have a zero y component), so the 2D displacement magnitude is `sqrt (dx^2 + dz^2)`.
* Real-valued magnitude comparisons `sqrt d < t` / `sqrt d > t` are encoded
  exactly over the squared magnitude `d >= 0` by `magLtSq` / `magGtSq` below,
  avoiding irrational square roots.
* The C library calls `std::atan2` and `std::pow` are transcendental
  floating-point functions; they are passed as abstract parameters
  `at2 : Q -> Q -> Q` (the bin angle of a displacement) and `pw : Q -> Q`
  (the hit weight as a function of the squared displacement magnitude,
  standing for `pow (sqrt d, hitDeweightingPower)`).  No claim below depends
  on the numeric values they produce.
* The framework calls (`GetCurrentList`, `GetList`, `SaveList`,
  `ReplaceCurrentList`) are modelled by `Option`-valued inputs and an explicit
  `RunOutput` record of the persistence effects; a thrown/returned non-success
  `StatusCode` is modelled by `Except StatusCode`.
-/

namespace VertexSelection

/-- A 2D position in one readout view: the in-plane coordinates `x` and `z`,
matching the `GetX`/`GetZ` components the algorithm reads from 2D
`CartesianVector`s (whose y component is zero for LAr 2D hits). -/
structure V2 where
  x : ℚ
  z : ℚ
  deriving DecidableEq

/-- A 3D position (`CartesianVector`). -/
structure V3 where
  x : ℚ
  y : ℚ
  z : ℚ
  deriving DecidableEq

/-- Squared magnitude of the 2D displacement `p - q` (the algorithm compares
the real magnitude `sqrt` of this value against thresholds). -/
def dispMagSq (p q : V2) : ℚ :=
  (p.x - q.x) * (p.x - q.x) + (p.z - q.z) * (p.z - q.z)

/-- Squared magnitude of the 3D displacement `p - q`. -/
def distSq3 (p q : V3) : ℚ :=
  (p.x - q.x) * (p.x - q.x) + (p.y - q.y) * (p.y - q.y) + (p.z - q.z) * (p.z - q.z)

/-- Exact encoding of `sqrt d < t` for `d >= 0`: true iff `t` is positive and
`d < t * t`. -/
def magLtSq (d t : ℚ) : Bool :=
  decide (0 < t) && decide (d < t * t)

/-- Exact encoding of `sqrt d > t` for `d >= 0`: true iff `t` is negative or
`t * t < d`. -/
def magGtSq (d t : ℚ) : Bool :=
  decide (t < 0) || decide (t * t < d)

/-- The three readout views `TPC_VIEW_U`, `TPC_VIEW_V`, `TPC_VIEW_W`. -/
inductive View where
  | u
  | v
  | w
  deriving DecidableEq

/-- A vertex candidate: framework-owned identity plus its 3D position. -/
structure Vertex where
  ident : ℕ
  pos : V3
  deriving DecidableEq

/-- A 2D cluster: its recorded hit type (view) and its calo hits in iteration
order (the `OrderedCaloHitList` flattened by depth then list order, which is
exactly the order the nested loops of `FillHistogram` visit). -/
structure Cluster where
  view : View
  hits : List V2
  deriving DecidableEq

/-- A `VertexScore`: a vertex reference paired with its figure of merit. -/
structure VertexScore where
  vertex : Vertex
  score : ℚ
  deriving DecidableEq

/-- Pandora status codes relevant to this algorithm.  `notFound` stands for
the framework-supplied non-success code of a failed list access;
`invalidParameter` is `STATUS_CODE_INVALID_PARAMETER`. -/
inductive StatusCode where
  | success
  | notFound
  | invalidParameter
  deriving DecidableEq

/-- The algorithm's configuration fields, with the defaults set by the
constructor (`VertexSelectionAlgorithm::VertexSelectionAlgorithm`).  The phi
range defaults are `±1.1π`, irrational, hence not fixed here; no claim
depends on them. -/
structure Config where
  replaceCurrentVertexList : Bool
  histogramNPhiBins : ℕ
  histogramPhiMin : ℚ
  histogramPhiMax : ℚ
  maxHitVertexDisplacement : ℚ
  maxOnHitDisplacement : ℚ
  maxTopScoreCandidates : ℕ
  minCandidateDisplacement : ℚ
  minCandidateScoreFraction : ℚ
  deriving DecidableEq

/-- Modelled from the spec: the external framework's fixed-range weighted
histogram (`pandora::Histogram`, outside this repository's sources): `nBins`
equal-width bins spanning `[phiMin, phiMax)`, each accumulating a weighted
sum; out-of-range fills are discarded. -/
structure Histogram where
  nBins : ℕ
  phiMin : ℚ
  phiMax : ℚ
  bins : List ℚ
  deriving DecidableEq

/-- A fresh histogram with all bins zero (`Histogram(nBins, phiMin, phiMax)`). -/
def Histogram.create (n : ℕ) (mn mx : ℚ) : Histogram :=
  ⟨n, mn, mx, List.replicate n 0⟩

/-- Modelled from the spec: `Histogram::Fill(phi, weight)` adds `weight` to
the bin containing `phi` under uniform binning of `[phiMin, phiMax)`;
out-of-range entries are discarded. -/
def Histogram.fill (h : Histogram) (phi w : ℚ) : Histogram :=
  if h.phiMin ≤ phi ∧ phi < h.phiMax then
    let binWidth := (h.phiMax - h.phiMin) / (h.nBins : ℚ)
    let idx := (Int.floor ((phi - h.phiMin) / binWidth)).toNat
    { h with bins := h.bins.set idx (h.bins.getD idx 0 + w) }
  else h

/-- `Histogram::GetBinContent(i)`. -/
def Histogram.binContent (h : Histogram) (i : ℕ) : ℚ :=
  h.bins.getD i 0

/-- The fresh per-(candidate, view) histogram built by `Run` from the
configured bin count and phi range. -/
def newHist (cfg : Config) : Histogram :=
  Histogram.create cfg.histogramNPhiBins cfg.histogramPhiMin cfg.histogramPhiMax

/-- One iteration of the inner hit loop of
`FillHistogram(vertexPosition2D, pCluster, histogram)` (lines 130-145):
skip the hit if its displacement magnitude exceeds
`m_maxHitVertexDisplacement`; otherwise update the on-hit flag when the
magnitude is strictly below `m_maxOnHitDisplacement`, and fill the histogram
at `atan2(dz, dx)` with weight `pow(magnitude, m_hitDeweightingPower)`. -/
def processHit (cfg : Config) (at2 : ℚ → ℚ → ℚ) (pw : ℚ → ℚ) (vtx2D : V2)
    (acc : Bool × Histogram) (hit : V2) : Bool × Histogram :=
  let magSq := dispMagSq hit vtx2D
  if magGtSq magSq cfg.maxHitVertexDisplacement then acc
  else
    let onHit := acc.1 || magLtSq magSq cfg.maxOnHitDisplacement
    let phi := at2 (hit.z - vtx2D.z) (hit.x - vtx2D.x)
    (onHit, acc.2.fill phi (pw magSq))

/-- `FillHistogram(vertexPosition2D, pCluster, histogram)`: folds the hit
loop over the cluster's hits, starting from a locally-false on-hit flag. -/
def fillHistogramCluster (cfg : Config) (at2 : ℚ → ℚ → ℚ) (pw : ℚ → ℚ)
    (vtx2D : V2) (c : Cluster) (h : Histogram) : Bool × Histogram :=
  c.hits.foldl (processHit cfg at2 pw vtx2D) (false, h)

/-- The cluster loop of `FillHistogram(pVertex, hitType, clusterListName,
histogram)` (lines 106-116): for each cluster, a recorded hit type different
from the requested view throws `STATUS_CODE_INVALID_PARAMETER`; otherwise the
per-cluster fill runs and its on-hit result is OR-ed into the view flag. -/
def scanClusters (cfg : Config) (at2 : ℚ → ℚ → ℚ) (pw : ℚ → ℚ) (vtx2D : V2)
    (view : View) : List Cluster → Bool × Histogram → Except StatusCode (Bool × Histogram)
  | [], acc => .ok acc
  | c :: rest, acc =>
    if c.view ≠ view then .error .invalidParameter
    else
      let r := fillHistogramCluster cfg at2 pw vtx2D c acc.2
      scanClusters cfg at2 pw vtx2D view rest (acc.1 || r.1, r.2)

/-- `FillHistogram(pVertex, hitType, clusterListName, histogram)`: fetch the
named cluster list (a failed fetch throws the framework's non-success code),
project the vertex position into the view, and scan all clusters.  The source
recomputes the (pure) projection per cluster with an identical result; it is
computed once here. -/
def fillHistogramView (cfg : Config) (at2 : ℚ → ℚ → ℚ) (pw : ℚ → ℚ)
    (proj : V3 → View → V2) (vpos : V3) (view : View)
    (ocl : Option (List Cluster)) (h : Histogram) : Except StatusCode (Bool × Histogram) :=
  match ocl with
  | none => .error .notFound
  | some cl => scanClusters cfg at2 pw (proj vpos view) view cl (false, h)

/-- `GetFigureOfMerit(histogram)`: the loop over bins summing
`binContent * binContent`. -/
def getFigureOfMerit1 (h : Histogram) : ℚ :=
  (List.range h.nBins).foldl (fun s i => s + h.binContent i * h.binContent i) 0

/-- `GetFigureOfMerit(histogramU, histogramV, histogramW)`: the three
successive `+=` of the single-histogram figures of merit. -/
def getFigureOfMerit3 (hU hV hW : Histogram) : ℚ :=
  0 + getFigureOfMerit1 hU + getFigureOfMerit1 hV + getFigureOfMerit1 hW

/-- The candidate loop of `Run` (lines 44-61): for each vertex, build three
fresh histograms, fill them for views U, V, W (each fill may abort the run),
drop the candidate unless it is on a hit in all three views, and otherwise
record its combined figure of merit. -/
def computeScores (cfg : Config) (at2 : ℚ → ℚ → ℚ) (pw : ℚ → ℚ)
    (proj : V3 → View → V2) (clU clV clW : Option (List Cluster)) :
    List Vertex → Except StatusCode (List VertexScore)
  | [] => .ok []
  | v :: rest =>
    match fillHistogramView cfg at2 pw proj v.pos .u clU (newHist cfg) with
    | .error e => .error e
    | .ok (onU, hU) =>
      match fillHistogramView cfg at2 pw proj v.pos .v clV (newHist cfg) with
      | .error e => .error e
      | .ok (onV, hV) =>
        match fillHistogramView cfg at2 pw proj v.pos .w clW (newHist cfg) with
        | .error e => .error e
        | .ok (onW, hW) =>
          match computeScores cfg at2 pw proj clU clV clW rest with
          | .error e => .error e
          | .ok tail =>
            if onU && onV && onW then
              .ok (⟨v, getFigureOfMerit3 hU hV hW⟩ :: tail)
            else .ok tail

/-- Modelled from the spec: the ordering of `VertexScore` (its comparison
operator is declared in the repository header, which is not among these
sources).  Per the spec the sort is descending by score, ties following the
input iteration order. -/
def scoreGe (a b : VertexScore) : Prop :=
  b.score ≤ a.score

instance : DecidableRel scoreGe :=
  fun a b => inferInstanceAs (Decidable (b.score ≤ a.score))

instance : IsTotal VertexScore scoreGe :=
  ⟨fun a b => le_total b.score a.score⟩

instance : IsTrans VertexScore scoreGe :=
  ⟨fun _ _ _ h1 h2 => le_trans h2 h1⟩

/-- `std::sort(vertexScoreList.begin(), vertexScoreList.end())` under the
descending-by-score ordering, modelled as a stable sort. -/
def sortDesc (l : List VertexScore) : List VertexScore :=
  List.insertionSort scoreGe l

/-- `AcceptVertexLocation(pVertex, vertexScoreList)` (lines 180-193): reject
iff the 3D distance to some already-accepted candidate is strictly below
`m_minCandidateDisplacement`.  The source's early-return loop is the
conjunction over the accepted list. -/
def acceptVertexLocation (cfg : Config) (v : Vertex) (acc : List VertexScore) : Bool :=
  acc.all fun a => !(magLtSq (distSq3 v.pos a.vertex.pos) cfg.minCandidateDisplacement)

/-- `AcceptVertexScore(score, vertexScoreList)` (lines 197-206): reject iff
the score is strictly below `m_minCandidateScoreFraction` times some
already-accepted candidate's score. -/
def acceptVertexScore (cfg : Config) (s : ℚ) (acc : List VertexScore) : Bool :=
  acc.all fun a => !(decide (s < cfg.minCandidateScoreFraction * a.score))

/-- The selection walk of `Run` (lines 65-80): walk the sorted list, breaking
once more than `m_maxTopScoreCandidates` entries have been considered; a
candidate is appended to the accepted working set unless the set is non-empty
and one of the two acceptance predicates rejects it. -/
def selectLoop (cfg : Config) : List VertexScore → ℕ → List VertexScore → List VertexScore
  | [], _, acc => acc
  | vs :: rest, nConsidered, acc =>
    if cfg.maxTopScoreCandidates < nConsidered + 1 then acc
    else if !acc.isEmpty && !(acceptVertexLocation cfg vs.vertex acc) then
      selectLoop cfg rest (nConsidered + 1) acc
    else if !acc.isEmpty && !(acceptVertexScore cfg vs.score acc) then
      selectLoop cfg rest (nConsidered + 1) acc
    else
      selectLoop cfg rest (nConsidered + 1) (acc ++ [vs])

/-- The accepted working set (`selectedVertexScoreList`) built by the walk. -/
def selectVertices (cfg : Config) (sorted : List VertexScore) : List VertexScore :=
  selectLoop cfg sorted 0 []

/-- The persistence effects of one run: the vertex list handed to `SaveList`
(if any) and whether `ReplaceCurrentList` was invoked. -/
structure RunOutput where
  savedList : Option (List Vertex)
  replacedCurrent : Bool
  deriving DecidableEq

/-- The emission step of `Run` (lines 82-92): if the accepted working set is
non-empty, save the singleton list holding `vertexScoreList.at(0)` — the head
of the sorted list — and optionally replace the current list.  The inner `[]`
case models the out-of-range access `.at(0)` on an empty sorted list; it is
unreachable because a non-empty accepted set forces a non-empty sorted list. -/
def emitOutput (cfg : Config) (scores : List VertexScore) : RunOutput :=
  let sorted := sortDesc scores
  if (selectVertices cfg sorted).isEmpty then ⟨none, false⟩
  else
    match sorted with
    | [] => ⟨none, false⟩
    | top :: _ => ⟨some [top.vertex], cfg.replaceCurrentVertexList⟩

instance {ε α : Type} [DecidableEq ε] [DecidableEq α] : DecidableEq (Except ε α) :=
  fun a b =>
    match a, b with
    | .error e, .error f =>
      if h : e = f then .isTrue (by rw [h]) else .isFalse (by simp [h])
    | .ok x, .ok y =>
      if h : x = y then .isTrue (by rw [h]) else .isFalse (by simp [h])
    | .error _, .ok _ => .isFalse (by simp)
    | .ok _, .error _ => .isFalse (by simp)

/-- The run's inputs: the framework's current vertex list (absent when
`GetCurrentList` fails) and the three named cluster lists (absent when the
named-list fetch fails). -/
structure Input where
  vertexList : Option (List Vertex)
  clustersU : Option (List Cluster)
  clustersV : Option (List Cluster)
  clustersW : Option (List Cluster)

/-- `VertexSelectionAlgorithm::Run` (lines 37-95): fetch the current vertex
list (propagating failure), score the candidates (propagating any failure
from the histogram fills), then sort, select and emit. -/
def run (cfg : Config) (at2 : ℚ → ℚ → ℚ) (pw : ℚ → ℚ) (proj : V3 → View → V2)
    (inp : Input) : Except StatusCode RunOutput :=
  match inp.vertexList with
  | none => .error .notFound
  | some vl =>
    match computeScores cfg at2 pw proj inp.clustersU inp.clustersV inp.clustersW vl with
    | .error e => .error e
    | .ok scores => .ok (emitOutput cfg scores)

/-- Modelled from the spec: the alternative emission rule "emit the best
(highest-scoring) member of the accepted working set", used to compare the
code's emission rule with the spec's wording; among equal best scores the
earliest-accepted member is taken. -/
def isBestOf (vs : VertexScore) (sel : List VertexScore) : Bool :=
  sel.all fun a => decide (a.score ≤ vs.score)

/-- Modelled from the spec: emit the first accepted member whose score is
maximal in the accepted working set. -/
def specEmitBestOfAccepted (sel : List VertexScore) : Option Vertex :=
  (sel.find? fun vs => isBestOf vs sel).map (·.vertex)

/-- Derived from the two guards of the hit loop: the hit is not skipped by the
`m_maxHitVertexDisplacement` cut and its magnitude is strictly below
`m_maxOnHitDisplacement`. -/
def hitNear (cfg : Config) (vtx2D p : V2) : Bool :=
  !(magGtSq (dispMagSq p vtx2D) cfg.maxHitVertexDisplacement) &&
    magLtSq (dispMagSq p vtx2D) cfg.maxOnHitDisplacement

/-! ### Concrete instances used by the witnesses -/

/-- A concrete configuration for witnesses: the constructor defaults for the
selection thresholds, a small rational phi range and bin count, and a finite
`maxHitVertexDisplacement`. -/
def cfgW : Config := ⟨true, 2, -4, 4, 100, 1, 5, 2, 9/10⟩

/-- A concrete stand-in for `std::atan2` in witnesses. -/
def at2W : ℚ → ℚ → ℚ := fun _ _ => 0

/-- A concrete stand-in for the hit weight function in witnesses. -/
def pwW : ℚ → ℚ := fun _ => 1

/-- A weight stand-in that marks evaluation at squared magnitude zero, making
the fill of a zero-displacement hit observable in the resulting histogram. -/
def pwMark : ℚ → ℚ := fun d => if d = 0 then 37 else 1

/-- A concrete projection stand-in for witnesses. -/
def projW : V3 → View → V2 := fun p _ => ⟨p.x, p.z⟩

def vtxA : Vertex := ⟨0, ⟨0, 0, 0⟩⟩

def vtxB : Vertex := ⟨1, ⟨10, 0, 0⟩⟩

def clListU : List Cluster := [⟨.u, [⟨0, 0⟩, ⟨10, 0⟩]⟩]

def clListV : List Cluster := [⟨.v, [⟨0, 0⟩, ⟨10, 0⟩]⟩]

def clListW : List Cluster := [⟨.w, [⟨0, 0⟩, ⟨10, 0⟩]⟩]

/-- A well-formed witness input: two candidates, each view holding one cluster
with one hit on each candidate's projected position. -/
def inpW : Input := ⟨some [vtxA, vtxB], some clListU, some clListV, some clListW⟩

/-- Witness input whose current vertex list is absent. -/
def inpNoVtx : Input := ⟨none, some clListU, some clListV, some clListW⟩

/-- Witness input whose U cluster list cannot be fetched. -/
def inpNoClu : Input := ⟨some [vtxA], none, some clListV, some clListW⟩

/-- Witness input whose U cluster list holds a cluster recorded in view V. -/
def inpMismatch : Input := ⟨some [vtxA], some [⟨.v, [⟨0, 0⟩]⟩], some clListV, some clListW⟩

/-! ### Basic characterizations of the threshold predicates -/

theorem magLtSq_eq_true_iff (d t : ℚ) :
    magLtSq d t = true ↔ 0 < t ∧ d < t * t := by
  simp [magLtSq]

theorem magLtSq_eq_false_iff (d t : ℚ) :
    magLtSq d t = false ↔ t ≤ 0 ∨ t * t ≤ d := by
  rw [← Bool.not_eq_true, magLtSq_eq_true_iff, not_and_or, not_lt, not_lt]

theorem magGtSq_eq_false_iff (d t : ℚ) :
    magGtSq d t = false ↔ 0 ≤ t ∧ d ≤ t * t := by
  simp [magGtSq, decide_eq_false_iff_not, not_lt]

theorem distSq3_comm (p q : V3) : distSq3 p q = distSq3 q p := by
  simp only [distSq3]
  ring

theorem acceptVertexLocation_eq_true_iff (cfg : Config) (v : Vertex)
    (acc : List VertexScore) :
    acceptVertexLocation cfg v acc = true ↔
      ∀ a ∈ acc, cfg.minCandidateDisplacement ≤ 0 ∨
        cfg.minCandidateDisplacement * cfg.minCandidateDisplacement ≤
          distSq3 v.pos a.vertex.pos := by
  simp only [acceptVertexLocation, List.all_eq_true, Bool.not_eq_true']
  constructor
  · intro h a ha
    exact (magLtSq_eq_false_iff _ _).mp (h a ha)
  · intro h a ha
    exact (magLtSq_eq_false_iff _ _).mpr (h a ha)

theorem acceptVertexScore_eq_true_iff (cfg : Config) (s : ℚ)
    (acc : List VertexScore) :
    acceptVertexScore cfg s acc = true ↔
      ∀ a ∈ acc, cfg.minCandidateScoreFraction * a.score ≤ s := by
  simp [acceptVertexScore, List.all_eq_true, not_lt]

/-! ### Structure of the selection walk -/

theorem selectLoop_cons (cfg : Config) (v : VertexScore) (rest : List VertexScore)
    (n : ℕ) (acc : List VertexScore) :
    selectLoop cfg (v :: rest) n acc =
      if cfg.maxTopScoreCandidates < n + 1 then acc
      else if !acc.isEmpty && !(acceptVertexLocation cfg v.vertex acc) then
        selectLoop cfg rest (n + 1) acc
      else if !acc.isEmpty && !(acceptVertexScore cfg v.score acc) then
        selectLoop cfg rest (n + 1) acc
      else selectLoop cfg rest (n + 1) (acc ++ [v]) := rfl

/-- The walk only appends to the accepted set, and every appended entry comes
from the first `maxTopScoreCandidates - n` entries of the remaining list. -/
theorem selectLoop_eq_append (cfg : Config) (l : List VertexScore) :
    ∀ (n : ℕ) (acc : List VertexScore),
      ∃ t, selectLoop cfg l n acc = acc ++ t ∧
        ∀ vs ∈ t, vs ∈ l.take (cfg.maxTopScoreCandidates - n) := by
  induction l with
  | nil =>
    intro n acc
    exact ⟨[], by simp [selectLoop], by simp⟩
  | cons v rest ih =>
    intro n acc
    by_cases hbreak : cfg.maxTopScoreCandidates < n + 1
    · exact ⟨[], by rw [selectLoop_cons, if_pos hbreak, List.append_nil], by simp⟩
    · have htake : (v :: rest).take (cfg.maxTopScoreCandidates - n) =
          v :: rest.take (cfg.maxTopScoreCandidates - (n + 1)) := by
        have h1 : cfg.maxTopScoreCandidates - n =
            (cfg.maxTopScoreCandidates - (n + 1)) + 1 := by omega
        rw [h1, List.take_succ_cons]
      by_cases hloc : (!acc.isEmpty && !(acceptVertexLocation cfg v.vertex acc)) = true
      · obtain ⟨t, ht, hmem⟩ := ih (n + 1) acc
        refine ⟨t, ?_, ?_⟩
        · rw [selectLoop_cons, if_neg hbreak, if_pos hloc, ht]
        · intro vs hvs
          rw [htake]
          exact List.mem_cons_of_mem v (hmem vs hvs)
      · by_cases hsc : (!acc.isEmpty && !(acceptVertexScore cfg v.score acc)) = true
        · obtain ⟨t, ht, hmem⟩ := ih (n + 1) acc
          refine ⟨t, ?_, ?_⟩
          · rw [selectLoop_cons, if_neg hbreak, if_neg hloc, if_pos hsc, ht]
          · intro vs hvs
            rw [htake]
            exact List.mem_cons_of_mem v (hmem vs hvs)
        · obtain ⟨t, ht, hmem⟩ := ih (n + 1) (acc ++ [v])
          refine ⟨v :: t, ?_, ?_⟩
          · rw [selectLoop_cons, if_neg hbreak, if_neg hloc, if_neg hsc, ht]
            simp
          · intro vs hvs
            rw [htake]
            rcases List.mem_cons.mp hvs with h | h
            · exact h ▸ List.mem_cons_self v _
            · exact List.mem_cons_of_mem v (hmem vs h)

/-- The walk never grows the accepted set beyond
`maxTopScoreCandidates - n` new members. -/
theorem selectLoop_length_le (cfg : Config) (l : List VertexScore) :
    ∀ (n : ℕ) (acc : List VertexScore),
      (selectLoop cfg l n acc).length ≤ acc.length + (cfg.maxTopScoreCandidates - n) := by
  induction l with
  | nil =>
    intro n acc
    simp [selectLoop]
  | cons v rest ih =>
    intro n acc
    by_cases hbreak : cfg.maxTopScoreCandidates < n + 1
    · rw [selectLoop_cons, if_pos hbreak]
      omega
    · by_cases hloc : (!acc.isEmpty && !(acceptVertexLocation cfg v.vertex acc)) = true
      · have := ih (n + 1) acc
        rw [selectLoop_cons, if_neg hbreak, if_pos hloc]
        omega
      · by_cases hsc : (!acc.isEmpty && !(acceptVertexScore cfg v.score acc)) = true
        · have := ih (n + 1) acc
          rw [selectLoop_cons, if_neg hbreak, if_neg hloc, if_pos hsc]
          omega
        · have := ih (n + 1) (acc ++ [v])
          rw [selectLoop_cons, if_neg hbreak, if_neg hloc, if_neg hsc]
          simp only [List.length_append, List.length_cons, List.length_nil] at this ⊢
          omega

/-- Every invariant of the accepted set that is re-established whenever a
candidate passing both acceptance predicates is appended is preserved by the
whole walk. -/
theorem selectLoop_pairwise (cfg : Config) (R : VertexScore → VertexScore → Prop)
    (hR : ∀ acc v, acceptVertexLocation cfg v.vertex acc = true →
      acceptVertexScore cfg v.score acc = true → ∀ a ∈ acc, R a v)
    (l : List VertexScore) :
    ∀ (n : ℕ) (acc : List VertexScore),
      acc.Pairwise R → (selectLoop cfg l n acc).Pairwise R := by
  induction l with
  | nil =>
    intro n acc hacc
    simpa [selectLoop] using hacc
  | cons v rest ih =>
    intro n acc hacc
    by_cases hbreak : cfg.maxTopScoreCandidates < n + 1
    · rw [selectLoop_cons, if_pos hbreak]
      exact hacc
    · by_cases hloc : (!acc.isEmpty && !(acceptVertexLocation cfg v.vertex acc)) = true
      · rw [selectLoop_cons, if_neg hbreak, if_pos hloc]
        exact ih (n + 1) acc hacc
      · by_cases hsc : (!acc.isEmpty && !(acceptVertexScore cfg v.score acc)) = true
        · rw [selectLoop_cons, if_neg hbreak, if_neg hloc, if_pos hsc]
          exact ih (n + 1) acc hacc
        · rw [selectLoop_cons, if_neg hbreak, if_neg hloc, if_neg hsc]
          apply ih (n + 1) (acc ++ [v])
          rw [List.pairwise_append]
          refine ⟨hacc, List.pairwise_singleton R v, ?_⟩
          intro a ha b hb
          have hb' : b = v := by simpa using hb
          rw [hb']
          cases hem : acc.isEmpty with
          | true =>
            have hnil : acc = [] := List.isEmpty_iff.mp hem
            rw [hnil] at ha
            simp at ha
          | false =>
            have hlocT : acceptVertexLocation cfg v.vertex acc = true := by
              rcases Bool.eq_false_or_eq_true (acceptVertexLocation cfg v.vertex acc) with h | h
              · exact h
              · exact absurd (by simp [hem, h]) hloc
            have hscT : acceptVertexScore cfg v.score acc = true := by
              rcases Bool.eq_false_or_eq_true (acceptVertexScore cfg v.score acc) with h | h
              · exact h
              · exact absurd (by simp [hem, h]) hsc
            exact hR acc v hlocT hscT a ha

/-! ### The sorted score list -/

theorem sortDesc_perm (l : List VertexScore) : (sortDesc l).Perm l :=
  List.perm_insertionSort scoreGe l

theorem mem_sortDesc (l : List VertexScore) (vs : VertexScore) :
    vs ∈ sortDesc l ↔ vs ∈ l :=
  (sortDesc_perm l).mem_iff

theorem sortDesc_sorted (l : List VertexScore) : List.Sorted scoreGe (sortDesc l) :=
  List.sorted_insertionSort scoreGe l

/-! ### Characterization of the per-view hit scan -/

theorem processHit_eq (cfg : Config) (at2 : ℚ → ℚ → ℚ) (pw : ℚ → ℚ)
    (vtx2D : V2) (acc : Bool × Histogram) (hit : V2) :
    processHit cfg at2 pw vtx2D acc hit =
      if magGtSq (dispMagSq hit vtx2D) cfg.maxHitVertexDisplacement then acc
      else (acc.1 || magLtSq (dispMagSq hit vtx2D) cfg.maxOnHitDisplacement,
        acc.2.fill (at2 (hit.z - vtx2D.z) (hit.x - vtx2D.x)) (pw (dispMagSq hit vtx2D))) := rfl

theorem foldl_processHit_fst (cfg : Config) (at2 : ℚ → ℚ → ℚ) (pw : ℚ → ℚ)
    (vtx2D : V2) (hits : List V2) :
    ∀ (b : Bool) (h : Histogram),
      (hits.foldl (processHit cfg at2 pw vtx2D) (b, h)).1 =
        (b || hits.any (hitNear cfg vtx2D)) := by
  induction hits with
  | nil => intro b h; simp
  | cons p rest ih =>
    intro b h
    rw [List.foldl_cons, List.any_cons, processHit_eq]
    by_cases hskip : magGtSq (dispMagSq p vtx2D) cfg.maxHitVertexDisplacement = true
    · rw [if_pos hskip, ih b h]
      have : hitNear cfg vtx2D p = false := by simp [hitNear, hskip]
      rw [this]
      simp
    · rw [if_neg hskip]
      rw [ih]
      have hskip' : magGtSq (dispMagSq p vtx2D) cfg.maxHitVertexDisplacement = false :=
        Bool.not_eq_true _ ▸ hskip
      have : hitNear cfg vtx2D p =
          magLtSq (dispMagSq p vtx2D) cfg.maxOnHitDisplacement := by
        simp [hitNear, hskip']
      rw [this, Bool.or_assoc]

theorem fillHistogramCluster_fst (cfg : Config) (at2 : ℚ → ℚ → ℚ) (pw : ℚ → ℚ)
    (vtx2D : V2) (c : Cluster) (h : Histogram) :
    (fillHistogramCluster cfg at2 pw vtx2D c h).1 = c.hits.any (hitNear cfg vtx2D) := by
  rw [fillHistogramCluster, foldl_processHit_fst]
  simp

theorem scanClusters_ok (cfg : Config) (at2 : ℚ → ℚ → ℚ) (pw : ℚ → ℚ)
    (vtx2D : V2) (view : View) (cl : List Cluster) :
    ∀ (acc : Bool × Histogram) (bOut : Bool) (hOut : Histogram),
      scanClusters cfg at2 pw vtx2D view cl acc = .ok (bOut, hOut) →
      bOut = (acc.1 || cl.any fun c => c.hits.any (hitNear cfg vtx2D)) ∧
        ∀ c ∈ cl, c.view = view := by
  induction cl with
  | nil =>
    intro acc bOut hOut hscan
    simp only [scanClusters, Except.ok.injEq] at hscan
    constructor
    · rw [hscan]
      simp
    · simp
  | cons c rest ih =>
    intro acc bOut hOut hscan
    simp only [scanClusters] at hscan
    by_cases hv : c.view ≠ view
    · rw [if_pos hv] at hscan
      exact absurd hscan (by simp)
    · rw [if_neg hv] at hscan
      obtain ⟨h1, h2⟩ := ih _ bOut hOut hscan
      have hcv : c.view = view := not_not.mp hv
      refine ⟨?_, ?_⟩
      · rw [h1]
        simp only [fillHistogramCluster_fst, List.any_cons, Bool.or_assoc]
      · intro d hd
        rcases List.mem_cons.mp hd with h | h
        · rw [h]; exact hcv
        · exact h2 d h

theorem scanClusters_allMatch_ok (cfg : Config) (at2 : ℚ → ℚ → ℚ) (pw : ℚ → ℚ)
    (vtx2D : V2) (view : View) (cl : List Cluster) :
    (∀ c ∈ cl, c.view = view) → ∀ acc, ∃ r,
      scanClusters cfg at2 pw vtx2D view cl acc = .ok r := by
  induction cl with
  | nil => intro _ acc; exact ⟨acc, rfl⟩
  | cons c rest ih =>
    intro hall acc
    have hcv : c.view = view := hall c (List.mem_cons_self c rest)
    obtain ⟨r, hr⟩ := ih (fun d hd => hall d (List.mem_cons_of_mem c hd)) _
    refine ⟨r, ?_⟩
    simp only [scanClusters, if_neg (not_not.mpr hcv)]
    exact hr

theorem scanClusters_mismatch (cfg : Config) (at2 : ℚ → ℚ → ℚ) (pw : ℚ → ℚ)
    (vtx2D : V2) (view : View) (cl : List Cluster) :
    (∃ c ∈ cl, c.view ≠ view) → ∀ acc,
      scanClusters cfg at2 pw vtx2D view cl acc = .error .invalidParameter := by
  induction cl with
  | nil => rintro ⟨c, hc, _⟩; simp at hc
  | cons c rest ih =>
    rintro ⟨d, hd, hdv⟩ acc
    by_cases hv : c.view ≠ view
    · simp only [scanClusters, if_pos hv]
    · have hdr : d ∈ rest := by
        rcases List.mem_cons.mp hd with h | h
        · exact absurd (h ▸ hdv) hv
        · exact h
      simp only [scanClusters, if_neg hv]
      exact ih ⟨d, hdr, hdv⟩ _

theorem fillHistogramView_ok_onHit (cfg : Config) (at2 : ℚ → ℚ → ℚ) (pw : ℚ → ℚ)
    (proj : V3 → View → V2) (vpos : V3) (view : View) (cl : List Cluster)
    (h0 : Histogram) (onHit : Bool) (hOut : Histogram) :
    fillHistogramView cfg at2 pw proj vpos view (some cl) h0 = .ok (onHit, hOut) →
      onHit = cl.any fun c => c.hits.any (hitNear cfg (proj vpos view)) := by
  intro h
  simp only [fillHistogramView] at h
  have := (scanClusters_ok cfg at2 pw (proj vpos view) view cl (false, h0) onHit hOut h).1
  simpa using this

theorem fillHistogramView_allMatch_ok (cfg : Config) (at2 : ℚ → ℚ → ℚ) (pw : ℚ → ℚ)
    (proj : V3 → View → V2) (vpos : V3) (view : View) (cl : List Cluster)
    (h0 : Histogram) :
    (∀ c ∈ cl, c.view = view) → ∃ r,
      fillHistogramView cfg at2 pw proj vpos view (some cl) h0 = .ok r := by
  intro hall
  simp only [fillHistogramView]
  exact scanClusters_allMatch_ok cfg at2 pw (proj vpos view) view cl hall (false, h0)

theorem fillHistogramView_mismatch (cfg : Config) (at2 : ℚ → ℚ → ℚ) (pw : ℚ → ℚ)
    (proj : V3 → View → V2) (vpos : V3) (view : View) (cl : List Cluster)
    (h0 : Histogram) :
    (∃ c ∈ cl, c.view ≠ view) →
      fillHistogramView cfg at2 pw proj vpos view (some cl) h0 = .error .invalidParameter := by
  intro hex
  simp only [fillHistogramView]
  exact scanClusters_mismatch cfg at2 pw (proj vpos view) view cl hex (false, h0)

/-! ### The figure of merit as a sum of squared bin contents -/

theorem foldl_add_gen (g : ℕ → ℚ) (l : List ℕ) :
    ∀ s : ℚ, l.foldl (fun a i => a + g i) s = s + (l.map g).sum := by
  induction l with
  | nil => intro s; simp
  | cons i rest ih =>
    intro s
    rw [List.foldl_cons, ih, List.map_cons, List.sum_cons]
    ring

theorem sum_map_list_range (g : ℕ → ℚ) (n : ℕ) :
    ((List.range n).map g).sum = ∑ i ∈ Finset.range n, g i := by
  induction n with
  | zero => simp
  | succ m ih =>
    rw [List.range_succ, List.map_append, List.sum_append, Finset.sum_range_succ, ih]
    simp

theorem getFigureOfMerit1_eq_sum (h : Histogram) :
    getFigureOfMerit1 h = ∑ i ∈ Finset.range h.nBins, h.binContent i ^ 2 := by
  rw [getFigureOfMerit1, foldl_add_gen, sum_map_list_range]
  simp [pow_two]

theorem getFigureOfMerit3_eq_sum (hU hV hW : Histogram) :
    getFigureOfMerit3 hU hV hW =
      (∑ i ∈ Finset.range hU.nBins, hU.binContent i ^ 2) +
      (∑ i ∈ Finset.range hV.nBins, hV.binContent i ^ 2) +
      (∑ i ∈ Finset.range hW.nBins, hW.binContent i ^ 2) := by
  rw [getFigureOfMerit3, getFigureOfMerit1_eq_sum, getFigureOfMerit1_eq_sum,
    getFigureOfMerit1_eq_sum]
  ring

/-! ### Structure of the candidate scoring loop -/

/-- Every recorded score belongs to an input candidate that was on a hit in
all three views, and its score is the combined figure of merit of the three
filled histograms. -/
theorem computeScores_mem (cfg : Config) (at2 : ℚ → ℚ → ℚ) (pw : ℚ → ℚ)
    (proj : V3 → View → V2) (clU clV clW : Option (List Cluster)) :
    ∀ (vl : List Vertex) (scores : List VertexScore),
      computeScores cfg at2 pw proj clU clV clW vl = .ok scores →
      ∀ vs ∈ scores, vs.vertex ∈ vl ∧
        ∃ hU hV hW,
          fillHistogramView cfg at2 pw proj vs.vertex.pos .u clU (newHist cfg) = .ok (true, hU) ∧
          fillHistogramView cfg at2 pw proj vs.vertex.pos .v clV (newHist cfg) = .ok (true, hV) ∧
          fillHistogramView cfg at2 pw proj vs.vertex.pos .w clW (newHist cfg) = .ok (true, hW) ∧
          vs.score = getFigureOfMerit3 hU hV hW := by
  intro vl
  induction vl with
  | nil =>
    intro scores h vs hm
    simp only [computeScores, Except.ok.injEq] at h
    rw [← h] at hm
    simp at hm
  | cons v rest ih =>
    intro scores h vs hm
    simp only [computeScores] at h
    cases h1 : fillHistogramView cfg at2 pw proj v.pos .u clU (newHist cfg) with
    | error e => rw [h1] at h; simp at h
    | ok pU =>
      obtain ⟨onU, hU⟩ := pU
      rw [h1] at h
      cases h2 : fillHistogramView cfg at2 pw proj v.pos .v clV (newHist cfg) with
      | error e => rw [h2] at h; simp at h
      | ok pV =>
        obtain ⟨onV, hV⟩ := pV
        rw [h2] at h
        cases h3 : fillHistogramView cfg at2 pw proj v.pos .w clW (newHist cfg) with
        | error e => rw [h3] at h; simp at h
        | ok pW =>
          obtain ⟨onW, hW⟩ := pW
          rw [h3] at h
          cases h4 : computeScores cfg at2 pw proj clU clV clW rest with
          | error e => rw [h4] at h; simp at h
          | ok tail =>
            rw [h4] at h
            dsimp only at h
            by_cases hg : (onU && onV && onW) = true
            · rw [if_pos hg] at h
              simp only [Except.ok.injEq] at h
              obtain ⟨hgU, hgVW⟩ := Bool.and_eq_true _ _ |>.mp (by
                have : (onU && (onV && onW)) = true := by
                  rw [← Bool.and_assoc]; exact hg
                exact this)
              obtain ⟨hgV, hgW⟩ := Bool.and_eq_true _ _ |>.mp hgVW
              rw [← h] at hm
              rcases List.mem_cons.mp hm with hhead | htail
              · subst hhead
                refine ⟨List.mem_cons_self v rest, hU, hV, hW, ?_, ?_, ?_, rfl⟩
                · rw [← hgU]; exact h1
                · rw [← hgV]; exact h2
                · rw [← hgW]; exact h3
              · obtain ⟨hmem, hrest⟩ := ih tail h4 vs htail
                exact ⟨List.mem_cons_of_mem v hmem, hrest⟩
            · rw [if_neg hg] at h
              simp only [Except.ok.injEq] at h
              rw [← h] at hm
              obtain ⟨hmem, hrest⟩ := ih tail h4 vs hm
              exact ⟨List.mem_cons_of_mem v hmem, hrest⟩

/-! ### Structure of the emission step and of the whole run -/

theorem emitOutput_cases (cfg : Config) (scores : List VertexScore) :
    (selectVertices cfg (sortDesc scores) = [] ∧ emitOutput cfg scores = ⟨none, false⟩) ∨
    (∃ top tl, sortDesc scores = top :: tl ∧
      selectVertices cfg (sortDesc scores) ≠ [] ∧
      emitOutput cfg scores = ⟨some [top.vertex], cfg.replaceCurrentVertexList⟩) := by
  by_cases hsel : (selectVertices cfg (sortDesc scores)).isEmpty = true
  · left
    exact ⟨List.isEmpty_iff.mp hsel, by simp [emitOutput, hsel]⟩
  · right
    have hne : selectVertices cfg (sortDesc scores) ≠ [] := by
      intro hnil
      exact hsel (by simp [hnil])
    have hsne : sortDesc scores ≠ [] := by
      intro hnil
      apply hne
      rw [hnil]
      simp [selectVertices, selectLoop]
    obtain ⟨top, tl, hs⟩ := List.exists_cons_of_ne_nil hsne
    refine ⟨top, tl, hs, hne, ?_⟩
    unfold emitOutput
    dsimp only
    rw [if_neg hsel, hs]

theorem run_vertexList_none (cfg : Config) (at2 : ℚ → ℚ → ℚ) (pw : ℚ → ℚ)
    (proj : V3 → View → V2) (inp : Input) (h : inp.vertexList = none) :
    run cfg at2 pw proj inp = .error .notFound := by
  simp [run, h]

theorem run_scores_error (cfg : Config) (at2 : ℚ → ℚ → ℚ) (pw : ℚ → ℚ)
    (proj : V3 → View → V2) (inp : Input) (vl : List Vertex) (e : StatusCode)
    (hvl : inp.vertexList = some vl)
    (hcs : computeScores cfg at2 pw proj inp.clustersU inp.clustersV inp.clustersW vl =
      .error e) :
    run cfg at2 pw proj inp = .error e := by
  simp [run, hvl, hcs]

theorem run_scores_ok (cfg : Config) (at2 : ℚ → ℚ → ℚ) (pw : ℚ → ℚ)
    (proj : V3 → View → V2) (inp : Input) (vl : List Vertex) (scores : List VertexScore)
    (hvl : inp.vertexList = some vl)
    (hcs : computeScores cfg at2 pw proj inp.clustersU inp.clustersV inp.clustersW vl =
      .ok scores) :
    run cfg at2 pw proj inp = .ok (emitOutput cfg scores) := by
  simp [run, hvl, hcs]

theorem run_ok_inv (cfg : Config) (at2 : ℚ → ℚ → ℚ) (pw : ℚ → ℚ)
    (proj : V3 → View → V2) (inp : Input) (out : RunOutput)
    (h : run cfg at2 pw proj inp = .ok out) :
    ∃ vl scores, inp.vertexList = some vl ∧
      computeScores cfg at2 pw proj inp.clustersU inp.clustersV inp.clustersW vl =
        .ok scores ∧
      out = emitOutput cfg scores := by
  cases hvl : inp.vertexList with
  | none => rw [run, hvl] at h; simp at h
  | some vl =>
    rw [run, hvl] at h
    dsimp only at h
    cases hcs : computeScores cfg at2 pw proj inp.clustersU inp.clustersV inp.clustersW vl with
    | error e => rw [hcs] at h; simp at h
    | ok scores =>
      rw [hcs] at h
      dsimp only at h
      simp only [Except.ok.injEq] at h
      exact ⟨vl, scores, rfl, hcs, h.symm⟩

/-- With a positive depth limit, the head of the sorted list is always the
first element accepted into the working set. -/
theorem selectVertices_cons_head (cfg : Config)
    (htop : 1 ≤ cfg.maxTopScoreCandidates) (top : VertexScore)
    (tl : List VertexScore) :
    ∃ t, selectVertices cfg (top :: tl) = top :: t ∧
      ∀ vs ∈ t, vs ∈ tl.take (cfg.maxTopScoreCandidates - 1) := by
  rw [selectVertices, selectLoop_cons]
  rw [if_neg (by omega), if_neg (by simp), if_neg (by simp)]
  obtain ⟨t, ht, hmem⟩ := selectLoop_eq_append cfg tl 1 ([] ++ [top])
  refine ⟨t, ?_, hmem⟩
  rw [ht]
  simp

theorem selectVertices_nil (cfg : Config) : selectVertices cfg [] = [] := by
  simp [selectVertices, selectLoop]

theorem selectVertices_subset (cfg : Config) (sorted : List VertexScore) :
    ∀ vs ∈ selectVertices cfg sorted, vs ∈ sorted.take cfg.maxTopScoreCandidates := by
  obtain ⟨t, ht, hmem⟩ := selectLoop_eq_append cfg sorted 0 []
  rw [selectVertices, ht]
  intro vs hv
  have := hmem vs (by simpa using hv)
  simpa using this

theorem sortDesc_head_max (scores : List VertexScore) (top : VertexScore)
    (tl : List VertexScore) (hs : sortDesc scores = top :: tl) :
    ∀ vs ∈ scores, vs.score ≤ top.score := by
  intro vs hv
  have hmem : vs ∈ sortDesc scores := (mem_sortDesc scores vs).mpr hv
  rw [hs] at hmem
  rcases List.mem_cons.mp hmem with h | h
  · rw [h]
  · have hsorted := sortDesc_sorted scores
    rw [hs] at hsorted
    exact (List.sorted_cons.mp hsorted).1 vs h

theorem selectVertices_maxTop_zero (cfg : Config)
    (hz : cfg.maxTopScoreCandidates = 0) (sorted : List VertexScore) :
    selectVertices cfg sorted = [] := by
  cases sorted with
  | nil => exact selectVertices_nil cfg
  | cons top tl =>
    rw [selectVertices, selectLoop_cons, if_pos (by omega)]

/-! ### Claims -/

section
attribute [local semireducible] Rat.add Rat.mul Rat.sub Rat.inv

/-- Claim C5: at every point during and after the selection walk, no two
distinct members of the accepted working set are at 3D distance strictly below
`minCandidateDisplacement` (default 2.0): a candidate whose 3D distance to any
already-accepted candidate is strictly below the threshold is rejected, and a
candidate at distance exactly equal to or above the threshold from all
accepted candidates passes the spatial predicate.  The first conjunct
characterizes the predicate exactly (over squared distances: `sqrt d < t` iff
`0 < t` and `d < t^2`, so distance equal to the threshold passes); the second
states the resulting invariant of the accepted working set. -/
theorem c5_spatial_exclusion (cfg : Config) (sorted : List VertexScore) :
    (∀ (v : Vertex) (acc : List VertexScore),
      acceptVertexLocation cfg v acc = true ↔
        ∀ a ∈ acc, cfg.minCandidateDisplacement ≤ 0 ∨
          cfg.minCandidateDisplacement * cfg.minCandidateDisplacement ≤
            distSq3 v.pos a.vertex.pos) ∧
    List.Pairwise (fun a b => cfg.minCandidateDisplacement ≤ 0 ∨
        cfg.minCandidateDisplacement * cfg.minCandidateDisplacement ≤
          distSq3 a.vertex.pos b.vertex.pos)
      (selectVertices cfg sorted) := by
  constructor
  · intro v acc
    exact acceptVertexLocation_eq_true_iff cfg v acc
  · apply selectLoop_pairwise
    · intro acc v hloc _ a ha
      rcases (acceptVertexLocation_eq_true_iff cfg v.vertex acc).mp hloc a ha with h | h
      · exact Or.inl h
      · right
        rw [distSq3_comm]
        exact h
    · exact List.Pairwise.nil

/-- Claim C5 witness: with the default thresholds, a candidate at squared
distance 4 (= 2.0^2) from the only accepted candidate passes the spatial
predicate, and a concrete walk's accepted set satisfies the invariant. -/
theorem c5_witness :
    acceptVertexLocation cfgW ⟨2, ⟨2, 0, 0⟩⟩ [⟨vtxA, 12⟩] = true ∧
    List.Pairwise (fun a b => cfgW.minCandidateDisplacement ≤ 0 ∨
        cfgW.minCandidateDisplacement * cfgW.minCandidateDisplacement ≤
          distSq3 a.vertex.pos b.vertex.pos)
      (selectVertices cfgW [⟨vtxA, 12⟩, ⟨vtxB, 12⟩]) :=
  ⟨(c5_spatial_exclusion cfgW []).1 ⟨2, ⟨2, 0, 0⟩⟩ [⟨vtxA, 12⟩] |>.mpr (by decide),
    (c5_spatial_exclusion cfgW [⟨vtxA, 12⟩, ⟨vtxB, 12⟩]).2⟩

/-- Claim C6: a candidate whose score is strictly below
`minCandidateScoreFraction` (default 0.9) times the score of any
already-accepted candidate is rejected; the rejection is strict, so a score
exactly equal to the threshold fraction of every accepted score passes, and
every member of the accepted set satisfies the fraction bound against every
member accepted before it. -/
theorem c6_score_dominance (cfg : Config) (sorted : List VertexScore) :
    (∀ (s : ℚ) (acc : List VertexScore),
      acceptVertexScore cfg s acc = true ↔
        ∀ a ∈ acc, cfg.minCandidateScoreFraction * a.score ≤ s) ∧
    List.Pairwise (fun a b => cfg.minCandidateScoreFraction * a.score ≤ b.score)
      (selectVertices cfg sorted) := by
  constructor
  · intro s acc
    exact acceptVertexScore_eq_true_iff cfg s acc
  · apply selectLoop_pairwise
    · intro acc v _ hsc a ha
      exact (acceptVertexScore_eq_true_iff cfg v.score acc).mp hsc a ha
    · exact List.Pairwise.nil

/-- Claim C6 witness: a score exactly equal to 0.9 times the accepted score
passes the predicate (boundary case), and a concrete walk's accepted set
satisfies the fraction invariant. -/
theorem c6_witness :
    acceptVertexScore cfgW (54/5) [⟨vtxA, 12⟩] = true ∧
    List.Pairwise
      (fun a b => cfgW.minCandidateScoreFraction * a.score ≤ b.score)
      (selectVertices cfgW [⟨vtxA, 12⟩, ⟨vtxB, 12⟩]) :=
  ⟨(c6_score_dominance cfgW []).1 (54/5) [⟨vtxA, 12⟩] |>.mpr (by decide),
    (c6_score_dominance cfgW [⟨vtxA, 12⟩, ⟨vtxB, 12⟩]).2⟩

/-- Claim C7: the selection walk examines at most the first
`maxTopScoreCandidates` (default 5) entries of the descending-sorted score
list; no candidate ranked beyond that depth is ever added to the accepted
working set ( every accepted member lies in the sorted list's prefix of that
length), so the accepted set never holds more than `maxTopScoreCandidates`
members. -/
theorem c7_depth_limit (cfg : Config) (sorted : List VertexScore) :
    (∀ vs ∈ selectVertices cfg sorted, vs ∈ sorted.take cfg.maxTopScoreCandidates) ∧
    (selectVertices cfg sorted).length ≤ cfg.maxTopScoreCandidates := by
  refine ⟨selectVertices_subset cfg sorted, ?_⟩
  have := selectLoop_length_le cfg sorted 0 []
  simpa [selectVertices] using this

/-- Claim C7 witness: on a concrete seven-element sorted list with depth limit
5, an accepted member is among the first five entries and the accepted set has
at most five members. -/
theorem c7_witness :
    (⟨vtxA, 12⟩ : VertexScore) ∈
      ([⟨vtxA, 12⟩, ⟨vtxB, 12⟩, ⟨vtxA, 11⟩, ⟨vtxB, 11⟩, ⟨vtxA, 11⟩, ⟨vtxB, 11⟩,
        ⟨vtxA, 11⟩] : List VertexScore).take cfgW.maxTopScoreCandidates ∧
    (selectVertices cfgW [⟨vtxA, 12⟩, ⟨vtxB, 12⟩, ⟨vtxA, 11⟩, ⟨vtxB, 11⟩,
        ⟨vtxA, 11⟩, ⟨vtxB, 11⟩, ⟨vtxA, 11⟩]).length ≤ cfgW.maxTopScoreCandidates :=
  ⟨(c7_depth_limit cfgW [⟨vtxA, 12⟩, ⟨vtxB, 12⟩, ⟨vtxA, 11⟩, ⟨vtxB, 11⟩,
      ⟨vtxA, 11⟩, ⟨vtxB, 11⟩, ⟨vtxA, 11⟩]).1 ⟨vtxA, 12⟩ (by decide),
    (c7_depth_limit cfgW [⟨vtxA, 12⟩, ⟨vtxB, 12⟩, ⟨vtxA, 11⟩, ⟨vtxB, 11⟩,
      ⟨vtxA, 11⟩, ⟨vtxB, 11⟩, ⟨vtxA, 11⟩]).2⟩

/-- Claim C4: the per-view scan returns `onHit = true` exactly when some hit
of some cluster of the view's collection passes the
`maxHitVertexDisplacement` skip guard (lines 137-138) and lies strictly
within `maxOnHitDisplacement` of the vertex's projected 2D position; the
comparison is strict (over squared magnitudes, a hit at distance exactly
`maxOnHitDisplacement` has `d = t*t` and does not set the flag) and, being an
existential over all hits, the flag is never unset by later hits. -/
theorem c4_on_hit_strict (cfg : Config) (at2 : ℚ → ℚ → ℚ) (pw : ℚ → ℚ)
    (proj : V3 → View → V2) (vpos : V3) (view : View) (cl : List Cluster)
    (h0 : Histogram) (onHit : Bool) (hOut : Histogram)
    (h : fillHistogramView cfg at2 pw proj vpos view (some cl) h0 = .ok (onHit, hOut)) :
    onHit = true ↔ ∃ c ∈ cl, ∃ p ∈ c.hits,
      (0 ≤ cfg.maxHitVertexDisplacement ∧
        dispMagSq p (proj vpos view) ≤
          cfg.maxHitVertexDisplacement * cfg.maxHitVertexDisplacement) ∧
      (0 < cfg.maxOnHitDisplacement ∧
        dispMagSq p (proj vpos view) <
          cfg.maxOnHitDisplacement * cfg.maxOnHitDisplacement) := by
  rw [fillHistogramView_ok_onHit cfg at2 pw proj vpos view cl h0 onHit hOut h]
  simp only [List.any_eq_true, hitNear, Bool.and_eq_true, Bool.not_eq_true',
    magGtSq_eq_false_iff, magLtSq_eq_true_iff]

/-- Claim C4 witness: the concrete U-view scan returns `onHit = true`, and a
hit at squared distance exactly `maxOnHitDisplacement^2 = 1` (position
`(1, 0)` against projected vertex `(0, 0)`) does not qualify, while the hit at
distance 0 does. -/
theorem c4_witness :
    fillHistogramView cfgW at2W pwW projW vtxA.pos .u
      (some [⟨.u, [⟨1, 0⟩, ⟨0, 0⟩]⟩]) (newHist cfgW) =
      .ok (true, ⟨2, -4, 4, [0, 2]⟩) ∧
    (true = true ↔ ∃ c ∈ [(⟨.u, [⟨1, 0⟩, ⟨0, 0⟩]⟩ : Cluster)], ∃ p ∈ c.hits,
      (0 ≤ cfgW.maxHitVertexDisplacement ∧
        dispMagSq p (projW vtxA.pos .u) ≤
          cfgW.maxHitVertexDisplacement * cfgW.maxHitVertexDisplacement) ∧
      (0 < cfgW.maxOnHitDisplacement ∧
        dispMagSq p (projW vtxA.pos .u) <
          cfgW.maxOnHitDisplacement * cfgW.maxOnHitDisplacement)) :=
  ⟨by decide,
    c4_on_hit_strict cfgW at2W pwW projW vtxA.pos .u [⟨.u, [⟨1, 0⟩, ⟨0, 0⟩]⟩]
      (newHist cfgW) true ⟨2, -4, 4, [0, 2]⟩ (by decide)⟩

/-- Claim C8: every scored candidate's combined figure of merit is the sum
over the three views of the per-view score, each being the sum over all bins
of the squared bin content, with no weighting between views. -/
theorem c8_figure_of_merit (cfg : Config) (at2 : ℚ → ℚ → ℚ) (pw : ℚ → ℚ)
    (proj : V3 → View → V2) (clU clV clW : Option (List Cluster))
    (vl : List Vertex) (scores : List VertexScore)
    (h : computeScores cfg at2 pw proj clU clV clW vl = .ok scores) :
    ∀ vs ∈ scores, ∃ hU hV hW,
      fillHistogramView cfg at2 pw proj vs.vertex.pos .u clU (newHist cfg) = .ok (true, hU) ∧
      fillHistogramView cfg at2 pw proj vs.vertex.pos .v clV (newHist cfg) = .ok (true, hV) ∧
      fillHistogramView cfg at2 pw proj vs.vertex.pos .w clW (newHist cfg) = .ok (true, hW) ∧
      vs.score = (∑ i ∈ Finset.range hU.nBins, hU.binContent i ^ 2) +
        (∑ i ∈ Finset.range hV.nBins, hV.binContent i ^ 2) +
        (∑ i ∈ Finset.range hW.nBins, hW.binContent i ^ 2) := by
  intro vs hm
  obtain ⟨_, hU, hV, hW, h1, h2, h3, hsc⟩ :=
    computeScores_mem cfg at2 pw proj clU clV clW vl scores h vs hm
  exact ⟨hU, hV, hW, h1, h2, h3, by rw [hsc, getFigureOfMerit3_eq_sum]⟩

/-- Claim C8 witness: on the concrete input both candidates are scored, and
the first recorded score 12 is exhibited as the sum over the three views of
the per-view sums of squared bin contents (4 + 4 + 4). -/
theorem c8_witness :
    ∃ hU hV hW,
      fillHistogramView cfgW at2W pwW projW vtxA.pos .u (some clListU) (newHist cfgW) =
        .ok (true, hU) ∧
      fillHistogramView cfgW at2W pwW projW vtxA.pos .v (some clListV) (newHist cfgW) =
        .ok (true, hV) ∧
      fillHistogramView cfgW at2W pwW projW vtxA.pos .w (some clListW) (newHist cfgW) =
        .ok (true, hW) ∧
      (12 : ℚ) = (∑ i ∈ Finset.range hU.nBins, hU.binContent i ^ 2) +
        (∑ i ∈ Finset.range hV.nBins, hV.binContent i ^ 2) +
        (∑ i ∈ Finset.range hW.nBins, hW.binContent i ^ 2) :=
  c8_figure_of_merit cfgW at2W pwW projW (some clListU) (some clListV) (some clListW)
    [vtxA, vtxB] [⟨vtxA, 12⟩, ⟨vtxB, 12⟩] (by decide) ⟨vtxA, 12⟩ (by decide)

/-- Claim C2 (the code lacks the claimed safeguard): there is no explicit
minimum-distance floor in the hit loop.  A hit at exactly the projected
vertex position (squared displacement 0) passes the skip guard and is filled
into the histogram with the weight function evaluated at magnitude 0 — in
the C++ source that weight is `std::pow(0.f, -0.5f) = +inf`.  The marker
weight function makes the evaluation at zero observable: bin 1 of the
resulting histogram receives the marker value 37 = `pwMark 0`, and the
on-hit flag is set. -/
theorem c2_zero_distance_filled :
    dispMagSq ⟨0, 0⟩ (projW vtxA.pos .u) = 0 ∧
    fillHistogramCluster cfgW at2W pwMark (projW vtxA.pos .u) ⟨.u, [⟨0, 0⟩]⟩
      (newHist cfgW) = (true, ⟨2, -4, 4, [0, 37]⟩) :=
  ⟨by decide, by decide⟩

/-- Claim C1: for every successful run the persisted output vertex list has
size 0 or 1, and whenever the accepted working set is non-empty the saved
list is exactly the singleton holding the head of the descending-sorted
score list (`vertexScoreList.at(0)`) — the globally top-scored candidate,
whose score bounds every recorded score — rather than a value recomputed
from the accepted working set. -/
theorem c1_output_singleton_global_top (cfg : Config) (at2 : ℚ → ℚ → ℚ)
    (pw : ℚ → ℚ) (proj : V3 → View → V2) (inp : Input) (out : RunOutput)
    (hrun : run cfg at2 pw proj inp = .ok out) :
    (out.savedList = none ∨ ∃ v, out.savedList = some [v]) ∧
    (∀ vl scores, inp.vertexList = some vl →
      computeScores cfg at2 pw proj inp.clustersU inp.clustersV inp.clustersW vl =
        .ok scores →
      selectVertices cfg (sortDesc scores) ≠ [] →
      ∃ top tl, sortDesc scores = top :: tl ∧ out.savedList = some [top.vertex] ∧
        ∀ vs ∈ scores, vs.score ≤ top.score) := by
  obtain ⟨vl0, scores0, hvl0, hcs0, hout⟩ := run_ok_inv cfg at2 pw proj inp out hrun
  subst hout
  constructor
  · rcases emitOutput_cases cfg scores0 with ⟨_, he⟩ | ⟨top, tl, _, _, he⟩
    · left
      rw [he]
    · right
      exact ⟨top.vertex, by rw [he]⟩
  · intro vl scores hvl hcs hne
    rw [hvl0] at hvl
    obtain rfl : vl0 = vl := Option.some.inj hvl
    rw [hcs0] at hcs
    obtain rfl : scores0 = scores := Except.ok.inj hcs
    rcases emitOutput_cases cfg scores0 with ⟨hsel, _⟩ | ⟨top, tl, hs, _, he⟩
    · exact absurd hsel hne
    · exact ⟨top, tl, hs, by rw [he], sortDesc_head_max scores0 top tl hs⟩

/-- Claim C1 witness: on the concrete two-candidate input the run succeeds,
the accepted set is non-empty, and the saved list is the singleton holding
the head of the sorted score list, whose score 12 bounds both scores. -/
theorem c1_witness :
    run cfgW at2W pwW projW inpW = .ok ⟨some [vtxA], true⟩ ∧
    ∃ top tl, sortDesc [⟨vtxA, 12⟩, ⟨vtxB, 12⟩] = top :: tl ∧
      (RunOutput.mk (some [vtxA]) true).savedList = some [top.vertex] ∧
      ∀ vs ∈ ([⟨vtxA, 12⟩, ⟨vtxB, 12⟩] : List VertexScore), vs.score ≤ top.score :=
  ⟨by decide,
    (c1_output_singleton_global_top cfgW at2W pwW projW inpW ⟨some [vtxA], true⟩
        (by decide)).2
      [vtxA, vtxB] [⟨vtxA, 12⟩, ⟨vtxB, 12⟩] (by decide) (by decide) (by decide)⟩

/-- Claim C3: every vertex in the final output list is an input candidate
that registered as on-hit in all three views U, V, W (a candidate failing a
view is dropped before ranking and can never be emitted), and an empty input
candidate list yields an empty output. -/
theorem c3_output_gated_by_on_hit (cfg : Config) (at2 : ℚ → ℚ → ℚ) (pw : ℚ → ℚ)
    (proj : V3 → View → V2) (inp : Input) (out : RunOutput)
    (hrun : run cfg at2 pw proj inp = .ok out) :
    (∀ l v, out.savedList = some l → v ∈ l →
      ∃ vl, inp.vertexList = some vl ∧ v ∈ vl ∧
        ∃ hU hV hW,
          fillHistogramView cfg at2 pw proj v.pos .u inp.clustersU (newHist cfg) =
            .ok (true, hU) ∧
          fillHistogramView cfg at2 pw proj v.pos .v inp.clustersV (newHist cfg) =
            .ok (true, hV) ∧
          fillHistogramView cfg at2 pw proj v.pos .w inp.clustersW (newHist cfg) =
            .ok (true, hW)) ∧
    (inp.vertexList = some [] → out.savedList = none) := by
  obtain ⟨vl0, scores0, hvl0, hcs0, hout⟩ := run_ok_inv cfg at2 pw proj inp out hrun
  subst hout
  constructor
  · intro l v hl hv
    rcases emitOutput_cases cfg scores0 with ⟨_, he⟩ | ⟨top, tl, hs, _, he⟩
    · rw [he] at hl
      simp at hl
    · rw [he] at hl
      obtain rfl : [top.vertex] = l := Option.some.inj hl
      have hv' : v = top.vertex := by simpa using hv
      subst hv'
      have htop : top ∈ scores0 := (mem_sortDesc scores0 top).mp
        (by rw [hs]; exact List.mem_cons_self top tl)
      obtain ⟨hvm, hU, hV, hW, h1, h2, h3, _⟩ :=
        computeScores_mem cfg at2 pw proj inp.clustersU inp.clustersV inp.clustersW
          vl0 scores0 hcs0 top htop
      exact ⟨vl0, hvl0, hvm, hU, hV, hW, h1, h2, h3⟩
  · intro hempty
    rw [hvl0] at hempty
    obtain rfl : vl0 = [] := Option.some.inj hempty
    have hz : computeScores cfg at2 pw proj inp.clustersU inp.clustersV
        inp.clustersW [] = .ok [] := rfl
    rw [hz] at hcs0
    obtain rfl : ([] : List VertexScore) = scores0 := Except.ok.inj hcs0
    rcases emitOutput_cases cfg [] with ⟨_, he⟩ | ⟨top, tl, hs, _, _⟩
    · rw [he]
    · exfalso
      simp [sortDesc, List.insertionSort] at hs

/-- Claim C3 witness: a concrete run whose emitted vertex carries on-hit
results in all three views, and the empty-input run saves nothing. -/
theorem c3_witness :
    (∃ vl, inpW.vertexList = some vl ∧ vtxA ∈ vl ∧
      ∃ hU hV hW,
        fillHistogramView cfgW at2W pwW projW vtxA.pos .u inpW.clustersU (newHist cfgW) =
          .ok (true, hU) ∧
        fillHistogramView cfgW at2W pwW projW vtxA.pos .v inpW.clustersV (newHist cfgW) =
          .ok (true, hV) ∧
        fillHistogramView cfgW at2W pwW projW vtxA.pos .w inpW.clustersW (newHist cfgW) =
          .ok (true, hW)) ∧
    ∀ out2, run cfgW at2W pwW projW ⟨some [], some clListU, some clListV, some clListW⟩ =
      .ok out2 → out2.savedList = none := by
  constructor
  · exact (c3_output_gated_by_on_hit cfgW at2W pwW projW inpW ⟨some [vtxA], true⟩
      (by decide)).1 [vtxA] vtxA (by decide) (by decide)
  · intro out2 h2
    exact (c3_output_gated_by_on_hit cfgW at2W pwW projW
      ⟨some [], some clListU, some clListV, some clListW⟩ out2 h2).2 rfl

/-- If a cluster list needed for the first candidate is absent, the scoring
loop aborts with a propagated error. -/
theorem computeScores_missing_error (cfg : Config) (at2 : ℚ → ℚ → ℚ) (pw : ℚ → ℚ)
    (proj : V3 → View → V2) (clU clV clW : Option (List Cluster)) (v : Vertex)
    (vl : List Vertex) (hmiss : clU = none ∨ clV = none ∨ clW = none) :
    ∃ e, computeScores cfg at2 pw proj clU clV clW (v :: vl) = .error e := by
  cases h1 : fillHistogramView cfg at2 pw proj v.pos .u clU (newHist cfg) with
  | error e =>
    refine ⟨e, ?_⟩
    simp only [computeScores, h1]
  | ok pU =>
    obtain ⟨onU, hU⟩ := pU
    cases h2 : fillHistogramView cfg at2 pw proj v.pos .v clV (newHist cfg) with
    | error e =>
      refine ⟨e, ?_⟩
      simp only [computeScores, h1, h2]
    | ok pV =>
      obtain ⟨onV, hV⟩ := pV
      cases h3 : fillHistogramView cfg at2 pw proj v.pos .w clW (newHist cfg) with
      | error e =>
        refine ⟨e, ?_⟩
        simp only [computeScores, h1, h2, h3]
      | ok pW =>
        exfalso
        rcases hmiss with hm | hm | hm
        · rw [hm] at h1
          simp [fillHistogramView] at h1
        · rw [hm] at h2
          simp [fillHistogramView] at h2
        · rw [hm] at h3
          simp [fillHistogramView] at h3

/-- If any supplied cluster's recorded view differs from its collection's
view, scoring the first candidate aborts with `invalidParameter`. -/
theorem computeScores_mismatch_error (cfg : Config) (at2 : ℚ → ℚ → ℚ) (pw : ℚ → ℚ)
    (proj : V3 → View → V2) (clU clV clW : List Cluster) (v : Vertex)
    (vl : List Vertex)
    (hm : (∃ c ∈ clU, c.view ≠ View.u) ∨ (∃ c ∈ clV, c.view ≠ View.v) ∨
      (∃ c ∈ clW, c.view ≠ View.w)) :
    computeScores cfg at2 pw proj (some clU) (some clV) (some clW) (v :: vl) =
      .error .invalidParameter := by
  by_cases hu : ∃ c ∈ clU, c.view ≠ View.u
  · have h1 := fillHistogramView_mismatch cfg at2 pw proj v.pos .u clU (newHist cfg) hu
    simp only [computeScores, h1]
  · have huAll : ∀ c ∈ clU, c.view = View.u := by
      intro c hc
      by_contra hne
      exact hu ⟨c, hc, hne⟩
    obtain ⟨rU, h1⟩ := fillHistogramView_allMatch_ok cfg at2 pw proj v.pos .u clU
      (newHist cfg) huAll
    obtain ⟨onU, hU⟩ := rU
    by_cases hv : ∃ c ∈ clV, c.view ≠ View.v
    · have h2 := fillHistogramView_mismatch cfg at2 pw proj v.pos .v clV (newHist cfg) hv
      simp only [computeScores, h1, h2]
    · have hvAll : ∀ c ∈ clV, c.view = View.v := by
        intro c hc
        by_contra hne
        exact hv ⟨c, hc, hne⟩
      obtain ⟨rV, h2⟩ := fillHistogramView_allMatch_ok cfg at2 pw proj v.pos .v clV
        (newHist cfg) hvAll
      obtain ⟨onV, hV⟩ := rV
      have hw : ∃ c ∈ clW, c.view ≠ View.w := by
        rcases hm with h | h | h
        · exact absurd h hu
        · exact absurd h hv
        · exact h
      have h3 := fillHistogramView_mismatch cfg at2 pw proj v.pos .w clW (newHist cfg) hw
      simp only [computeScores, h1, h2, h3]

/-- Claim C9: if the input vertex list is absent the run aborts with the
framework's error; if a named cluster list cannot be fetched while there is a
candidate to scan, the run aborts with a propagated error; if any supplied
cluster's recorded view differs from the view being scanned, the run aborts
with `invalidParameter`.  In each case the result is an error, so no output
vertex list is saved and the current list is not replaced. -/
theorem c9_error_propagation (cfg : Config) (at2 : ℚ → ℚ → ℚ) (pw : ℚ → ℚ)
    (proj : V3 → View → V2) (inp : Input) :
    (inp.vertexList = none → run cfg at2 pw proj inp = .error .notFound) ∧
    (∀ v vl, inp.vertexList = some (v :: vl) →
      (inp.clustersU = none ∨ inp.clustersV = none ∨ inp.clustersW = none) →
      ∃ e, run cfg at2 pw proj inp = .error e) ∧
    (∀ v vl clU clV clW, inp.vertexList = some (v :: vl) →
      inp.clustersU = some clU → inp.clustersV = some clV →
      inp.clustersW = some clW →
      ((∃ c ∈ clU, c.view ≠ View.u) ∨ (∃ c ∈ clV, c.view ≠ View.v) ∨
        (∃ c ∈ clW, c.view ≠ View.w)) →
      run cfg at2 pw proj inp = .error .invalidParameter) := by
  refine ⟨run_vertexList_none cfg at2 pw proj inp, ?_, ?_⟩
  · intro v vl hvl hmiss
    obtain ⟨e, he⟩ := computeScores_missing_error cfg at2 pw proj inp.clustersU
      inp.clustersV inp.clustersW v vl hmiss
    exact ⟨e, run_scores_error cfg at2 pw proj inp (v :: vl) e hvl he⟩
  · intro v vl clU clV clW hvl hU hV hW hm
    apply run_scores_error cfg at2 pw proj inp (v :: vl) .invalidParameter hvl
    rw [hU, hV, hW]
    exact computeScores_mismatch_error cfg at2 pw proj clU clV clW v vl hm

/-- Claim C9 counterexample to the unconditional reading: with an empty
candidate list and an unfetchable U cluster list, the run does not abort — it
returns success with no output, because the cluster lists are only fetched
inside the per-candidate scan and no candidate is ever scanned. -/
theorem c9_counterexample :
    (⟨some [], none, some clListV, some clListW⟩ : Input).clustersU = none ∧
    run cfgW at2W pwW projW ⟨some [], none, some clListV, some clListW⟩ =
      .ok ⟨none, false⟩ :=
  ⟨rfl, by decide⟩

/-- Claim C9 witness: concrete failing runs for the three error classes — an
absent vertex list, an unfetchable U cluster list, and a U collection holding
a cluster recorded in view V. -/
theorem c9_witness :
    run cfgW at2W pwW projW inpNoVtx = .error .notFound ∧
    (∃ e, run cfgW at2W pwW projW inpNoClu = .error e) ∧
    run cfgW at2W pwW projW inpMismatch = .error .invalidParameter :=
  ⟨(c9_error_propagation cfgW at2W pwW projW inpNoVtx).1 (by decide),
    (c9_error_propagation cfgW at2W pwW projW inpNoClu).2.1 vtxA [] (by decide)
      (Or.inl (by decide)),
    (c9_error_propagation cfgW at2W pwW projW inpMismatch).2.2 vtxA []
      [⟨.v, [⟨0, 0⟩]⟩] clListV clListW (by decide) (by decide) (by decide) (by decide)
      (Or.inl ⟨⟨.v, [⟨0, 0⟩]⟩, by decide, by decide⟩)⟩

/-- Claim C10: whenever `maxTopScoreCandidates >= 1`, the head of the
descending-sorted list is always the first element accepted unconditionally,
the accepted working set is non-empty exactly when the scored list is, and
the emitted vertex is a member of — and a highest-scoring member of — the
accepted working set, so the code's rule "emit the head of the sorted list"
and the spec-side rule "emit the best of the accepted set"
(`specEmitBestOfAccepted`) coincide; when `maxTopScoreCandidates = 0`, no
output is ever produced. -/
theorem c10_emission_rules_coincide (cfg : Config) (at2 : ℚ → ℚ → ℚ)
    (pw : ℚ → ℚ) (proj : V3 → View → V2) (inp : Input) (out : RunOutput)
    (vl : List Vertex) (scores : List VertexScore)
    (hvl : inp.vertexList = some vl)
    (hcs : computeScores cfg at2 pw proj inp.clustersU inp.clustersV inp.clustersW vl =
      .ok scores)
    (hrun : run cfg at2 pw proj inp = .ok out) :
    (1 ≤ cfg.maxTopScoreCandidates →
      (selectVertices cfg (sortDesc scores) = [] ↔ scores = []) ∧
      (selectVertices cfg (sortDesc scores)).head? = (sortDesc scores).head? ∧
      (selectVertices cfg (sortDesc scores) ≠ [] →
        ∃ top, (sortDesc scores).head? = some top ∧
          out.savedList = some [top.vertex] ∧
          top ∈ selectVertices cfg (sortDesc scores) ∧
          (∀ a ∈ selectVertices cfg (sortDesc scores), a.score ≤ top.score) ∧
          specEmitBestOfAccepted (selectVertices cfg (sortDesc scores)) =
            some top.vertex)) ∧
    (cfg.maxTopScoreCandidates = 0 →
      out.savedList = none ∧ out.replacedCurrent = false) := by
  obtain ⟨vl0, scores0, hvl0, hcs0, hout⟩ := run_ok_inv cfg at2 pw proj inp out hrun
  rw [hvl0] at hvl
  obtain rfl : vl0 = vl := Option.some.inj hvl
  rw [hcs0] at hcs
  obtain rfl : scores0 = scores := Except.ok.inj hcs
  subst hout
  constructor
  · intro hpos
    cases hs : sortDesc scores0 with
    | nil =>
      have hscores : scores0 = [] := by
        have hp := sortDesc_perm scores0
        rw [hs] at hp
        exact hp.symm.eq_nil
      refine ⟨⟨fun _ => hscores, fun _ => selectVertices_nil cfg⟩, ?_, ?_⟩
      · rw [selectVertices_nil cfg]
      · intro hne
        exact absurd (selectVertices_nil cfg) hne
    | cons top tl =>
      obtain ⟨t, hsel, htmem⟩ := selectVertices_cons_head cfg hpos top tl
      have hmax : ∀ a ∈ selectVertices cfg (top :: tl), a.score ≤ top.score := by
        intro a ha
        rw [hsel] at ha
        rcases List.mem_cons.mp ha with h | h
        · rw [h]
        · have hatl : a ∈ tl := List.take_subset _ _ (htmem a h)
          have hsorted := sortDesc_sorted scores0
          rw [hs] at hsorted
          exact (List.sorted_cons.mp hsorted).1 a hatl
      refine ⟨⟨fun hselnil => ?_, fun hsc => ?_⟩, ?_, ?_⟩
      · rw [hsel] at hselnil
        exact absurd hselnil (List.cons_ne_nil top t)
      · rw [hsc] at hs
        simp [sortDesc, List.insertionSort] at hs
      · rw [hsel]
        rfl
      · intro hne
        refine ⟨top, rfl, ?_, ?_, hmax, ?_⟩
        · rcases emitOutput_cases cfg scores0 with ⟨hsel0, _⟩ | ⟨top2, tl2, hs2, _, he⟩
          · rw [hs] at hsel0
            exact absurd hsel0 hne
          · rw [hs] at hs2
            injection hs2 with h1 _
            rw [he, ← h1]
        · rw [hsel]
          exact List.mem_cons_self top t
        · rw [hsel]
          have hp : isBestOf top (top :: t) = true := by
            rw [isBestOf, List.all_eq_true]
            intro a ha
            have haa : a.score ≤ top.score := by
              apply hmax
              rw [hsel]
              exact ha
            exact decide_eq_true haa
          have hp2 : (fun vs => isBestOf vs (top :: t)) top = true := hp
          rw [specEmitBestOfAccepted, List.find?_cons_of_pos t hp2]
          rfl
  · intro hz
    have hsel0 := selectVertices_maxTop_zero cfg hz (sortDesc scores0)
    rcases emitOutput_cases cfg scores0 with ⟨_, he⟩ | ⟨top, tl, hs, hne, he⟩
    · rw [he]
      exact ⟨rfl, rfl⟩
    · exact absurd hsel0 hne

/-- Claim C10 witness: on the concrete two-candidate input with depth limit
5, the emitted vertex is exhibited as the head of the sorted list, a member
and maximal-score member of the accepted set, and equal to the spec-side
best-of-accepted emission. -/
theorem c10_witness :
    ∃ top, (sortDesc [⟨vtxA, 12⟩, ⟨vtxB, 12⟩]).head? = some top ∧
      (RunOutput.mk (some [vtxA]) true).savedList = some [top.vertex] ∧
      top ∈ selectVertices cfgW (sortDesc [⟨vtxA, 12⟩, ⟨vtxB, 12⟩]) ∧
      (∀ a ∈ selectVertices cfgW (sortDesc [⟨vtxA, 12⟩, ⟨vtxB, 12⟩]),
        a.score ≤ top.score) ∧
      specEmitBestOfAccepted (selectVertices cfgW (sortDesc [⟨vtxA, 12⟩, ⟨vtxB, 12⟩])) =
        some top.vertex :=
  ((c10_emission_rules_coincide cfgW at2W pwW projW inpW ⟨some [vtxA], true⟩
      [vtxA, vtxB] [⟨vtxA, 12⟩, ⟨vtxB, 12⟩] (by decide) (by decide) (by decide)).1
    (by decide)).2.2 (by decide)

end

end VertexSelection
